import Mathlib

/-!
Shallow embedding of `src/ringbuffer.h` (classes `ringbuffer_spsc` and
`ringbuffer_mpmc`).

Conventions of the embedding:

* The `uint64_t` cursors (`in_`, `out_`, `real_in_`, `real_out_`) are modelled
  as unbounded naturals.  They are byte totals that only ever grow; the claims
  under verification concern executions whose totals stay below `2^64`, where
  `uint64_t` arithmetic agrees with `Nat` arithmetic (the index mask
  `x & (buf_size_ - 1)` depends only on the low bits, and the comparisons
  `in_ + size <= buf_size_ + out_` etc. do not overflow there).
* The backing storage `uint8_t* buffer_` is a function `Nat → α` (only indices
  `< cap` are ever used); the byte type is an arbitrary `α` because `memcpy`
  moves bytes without interpreting them.  The initial storage function is an
  arbitrary "malloc garbage" parameter.
* `memcpy(dst_off, src, n)` becomes a pointwise function update over the
  copied index range (`memcpySeg`).
* Blocking mode (`enable_cv_ = true`) and spinning mode reduce, in the
  sequential (one operation at a time) semantics used here, to the same thing:
  an operation either finds its availability predicate true and completes, or
  it waits (`OpResult.block`).  `printf` + `assert(false)` — the fatal
  diagnostic path of `ringbuffer_spsc::write` — becomes `OpResult.fatal`.
-/

/-- Result of one call of a buffer operation, as observed by the caller:
`fatal` is the `printf` diagnostic followed by `assert(false)` (process
abort), `block` means the availability predicate is false and the call
waits (condition variable) or spins, `ok` is normal completion. -/
inductive OpResult (σ : Type u) (α : Type v) where
  | fatal : OpResult σ α
  | block : OpResult σ α
  | ok (s : σ) (out : α) : OpResult σ α
  deriving DecidableEq

/-- State of a `ringbuffer_spsc` object: capacity `buf_size_`, the byte
storage `buffer_`, the `enable_cv_` flag and the two cursors `in_`, `out_`. -/
structure SpscState (α : Type u) where
  cap : Nat
  storage : Nat → α
  enable_cv : Bool
  inC : Nat
  outC : Nat

/-- `ringbuffer_spsc::ringbuffer_spsc(buf_size, enable_cv)`: the constructor
stores the arguments and zeroes both cursors.  The only check in the source is
`assert(buffer_)` on the `malloc` result; the capacity itself is not
validated.  `g` is the arbitrary content of the freshly malloc'ed storage. -/
def ringbuffer_spsc_mk (buf_size : Nat) (enable_cv : Bool) (g : Nat → α) :
    SpscState α :=
  { cap := buf_size, storage := g, enable_cv := enable_cv, inC := 0, outC := 0 }

/-- `ringbuffer_spsc::get_total_in`. -/
def spsc_get_total_in (s : SpscState α) : Nat := s.inC

/-- `ringbuffer_spsc::get_total_out`. -/
def spsc_get_total_out (s : SpscState α) : Nat := s.outC

/-- `ringbuffer_spsc::can_put`: `in_ + size <= buf_size_ + out_`. -/
def can_put (s : SpscState α) (size : Nat) : Bool :=
  s.inC + size ≤ s.cap + s.outC

/-- `ringbuffer_spsc::can_get`: `in_ >= size + out_`. -/
def can_get (s : SpscState α) (size : Nat) : Bool :=
  s.inC ≥ size + s.outC

/-- One `memcpy(base + dst, data, data.length)` into a storage function:
indices `dst ≤ j < dst + data.length` take the copied bytes, all others keep
their old content. -/
def memcpySeg (st : Nat → α) (dst : Nat) (data : List α) : Nat → α :=
  fun j => if dst ≤ j ∧ j - dst < data.length
    then data.getD (j - dst) (st j) else st j

/-- `ringbuffer_spsc::put`: two `memcpy`s (straight part at offset
`in_ & (buf_size_ - 1)`, wrapped part at offset `0`), then `in_ += len`. -/
def spsc_put (s : SpscState α) (data : List α) : SpscState α :=
  let off := s.inC &&& (s.cap - 1)
  let l := min data.length (s.cap - off)
  { s with
    storage := memcpySeg (memcpySeg s.storage off (data.take l)) 0 (data.drop l)
    inC := s.inC + data.length }

/-- The `len` bytes delivered by `ringbuffer_spsc::get`: straight part from
offset `out_ & (buf_size_ - 1)`, wrapped part from offset `0`. -/
def spsc_get_data (s : SpscState α) (len : Nat) : List α :=
  let off := s.outC &&& (s.cap - 1)
  let l := min len (s.cap - off)
  ((List.range l).map fun i => s.storage (off + i)) ++
    ((List.range (len - l)).map fun i => s.storage i)

/-- Cursor effect of `ringbuffer_spsc::get`: `out_ += len` (storage is only
read). -/
def spsc_get' (s : SpscState α) (len : Nat) : SpscState α :=
  { s with outC := s.outC + len }

/-- `ringbuffer_spsc::write`: the oversize check (`printf` + `assert(false)`)
comes first; then, in both wait modes, the call completes exactly when
`can_put` holds, performing `put`. -/
def spsc_write (s : SpscState α) (data : List α) : OpResult (SpscState α) Unit :=
  if data.length > s.cap then .fatal
  else if can_put s data.length then .ok (spsc_put s data) () else .block

/-- `ringbuffer_spsc::read`: no oversize check exists in the source; in both
wait modes the call completes exactly when `can_get` holds, performing
`get`. -/
def spsc_read (s : SpscState α) (len : Nat) : OpResult (SpscState α) (List α) :=
  if can_get s len then .ok (spsc_get' s len) (spsc_get_data s len) else .block

/-- A producer/consumer request against the SPSC buffer. -/
inductive SOp (α : Type u) where
  | wr (data : List α)
  | rd (n : Nat)

/-- Sequential execution of a list of requests: each request must complete
(`ok`); a blocked or fatal request makes the whole trace invalid (`none`).
The collected outputs are the chunks returned by the reads, in order. -/
def spscRun (s : SpscState α) : List (SOp α) → Option (SpscState α × List (List α))
  | [] => some (s, [])
  | .wr d :: rest =>
    match spsc_write s d with
    | .ok s' _ => spscRun s' rest
    | _ => none
  | .rd n :: rest =>
    match spsc_read s n with
    | .ok s' out => (spscRun s' rest).map fun p => (p.1, out :: p.2)
    | _ => none

/-- Only the read outputs of a sequential execution. -/
def spscRunOuts (s : SpscState α) (ops : List (SOp α)) : Option (List (List α)) :=
  (spscRun s ops).map Prod.snd

/-- The chunks written by a request list, in order. -/
def writesOf : List (SOp α) → List (List α)
  | [] => []
  | .wr d :: rest => d :: writesOf rest
  | .rd _ :: rest => writesOf rest

/-- The read sizes of a request list, in order. -/
def readsOf : List (SOp α) → List Nat
  | [] => []
  | .wr _ :: rest => readsOf rest
  | .rd n :: rest => n :: readsOf rest

/-- Ghost invariant tying an SPSC state to the history `hist` of all bytes
ever written: power-of-two capacity, the cursor chain `out ≤ in ≤ out + cap`,
`hist` has exactly `in_` bytes, and every not-yet-consumed byte position `p`
holds `hist[p]` at storage index `p % cap`. -/
def SpscInv (s : SpscState α) (hist : List α) (k : Nat) : Prop :=
  s.cap = 2 ^ k ∧ s.outC ≤ s.inC ∧ s.inC ≤ s.outC + s.cap ∧
  hist.length = s.inC ∧
  ∀ p, s.outC ≤ p → p < s.inC → hist.get? p = some (s.storage (p % s.cap))

theorem two_pow_cap_pos {s : SpscState α} {k : Nat} (hk : s.cap = 2 ^ k) :
    0 < s.cap := hk ▸ Nat.two_pow_pos k

theorem mask_eq_mod {s : SpscState α} {k : Nat} (hk : s.cap = 2 ^ k) (n : Nat) :
    n &&& (s.cap - 1) = n % s.cap := by
  rw [hk]; exact Nat.and_pow_two_sub_one_eq_mod n k

/-- The two-`memcpy` wrap-around write pattern of `put`, read back at the
position of the `i`-th copied byte: storage index `(base + i) % cap` holds
`data[i]`. -/
theorem wrapWrite_get (st : Nat → α) (cap base : Nat) (data : List α)
    (hcap : 0 < cap) (hlen : data.length ≤ cap) (i : Nat) (hi : i < data.length) :
    data.get? i =
      some (memcpySeg (memcpySeg st (base % cap)
              (data.take (min data.length (cap - base % cap)))) 0
              (data.drop (min data.length (cap - base % cap)))
            ((base + i) % cap)) := by
  have hoff : base % cap < cap := Nat.mod_lt _ hcap
  set off := base % cap with hoffdef
  set l := min data.length (cap - off) with hldef
  have hll : l ≤ data.length := le_min_iff.mp le_rfl |>.1
  have hlr : l ≤ cap - off := le_min_iff.mp le_rfl |>.2
  have hicap : i < cap := lt_of_lt_of_le hi hlen
  have hmod : (base + i) % cap = (off + i) % cap := by
    conv_lhs => rw [Nat.add_mod]
    rw [Nat.mod_eq_of_lt hicap]
  rw [hmod]
  by_cases hil : i < l
  · have hlt : off + i < cap := by omega
    rw [Nat.mod_eq_of_lt hlt]
    simp only [memcpySeg, List.length_drop, List.length_take]
    rw [if_neg (by omega), if_pos (by omega), List.getD_eq_get?,
      Nat.add_sub_cancel_left, List.get?_take hil, List.get?_eq_get hi,
      Option.getD_some]
  · have hlcap : l = cap - off := by omega
    have hge : cap ≤ off + i := by omega
    have hmod2 : (off + i) % cap = i - l := by
      rw [Nat.mod_eq_sub_mod hge, Nat.mod_eq_of_lt (by omega)]
      omega
    rw [hmod2]
    simp only [memcpySeg, List.length_drop, List.length_take]
    rw [if_pos (by omega)]
    rw [List.getD_eq_get?, Nat.sub_zero, List.get?_drop,
      Nat.add_sub_cancel' (by omega : l ≤ i), List.get?_eq_get hi,
      Option.getD_some]

/-- The two-`memcpy` wrap-around write pattern of `put` leaves every storage
index outside the copied range unchanged. -/
theorem wrapWrite_frame (st : Nat → α) (cap base : Nat) (data : List α)
    (hcap : 0 < cap) (hlen : data.length ≤ cap) (j : Nat) (hj : j < cap)
    (hmiss : ∀ i, i < data.length → j ≠ (base + i) % cap) :
    memcpySeg (memcpySeg st (base % cap)
        (data.take (min data.length (cap - base % cap)))) 0
        (data.drop (min data.length (cap - base % cap))) j = st j := by
  have hoff : base % cap < cap := Nat.mod_lt _ hcap
  set off := base % cap with hoffdef
  set l := min data.length (cap - off) with hldef
  have hll : l ≤ data.length := le_min_iff.mp le_rfl |>.1
  have hlr : l ≤ cap - off := le_min_iff.mp le_rfl |>.2
  have hmod : ∀ i, i < data.length → (base + i) % cap = (off + i) % cap := by
    intro i hi
    conv_lhs => rw [Nat.add_mod]
    rw [Nat.mod_eq_of_lt (lt_of_lt_of_le hi hlen)]
  simp only [memcpySeg, List.length_drop, List.length_take]
  rw [if_neg, if_neg]
  · rintro ⟨hj1, hj2⟩
    rw [min_eq_left hll] at hj2
    refine hmiss (j - off) (by omega) ?_
    rw [hmod _ (by omega), Nat.add_sub_cancel' hj1, Nat.mod_eq_of_lt hj]
  · rintro ⟨-, hj2⟩
    rw [Nat.sub_zero] at hj2
    have hlcap : l = cap - off := by omega
    refine hmiss (j + l) (by omega) ?_
    rw [hmod _ (by omega), Nat.mod_eq_sub_mod (by omega),
      Nat.mod_eq_of_lt (by omega)]
    omega

theorem wrap_index_lo (cap base i : Nat) (h : base % cap + i < cap) :
    (base + i) % cap = base % cap + i := by
  have hi : i < cap := by omega
  conv_lhs => rw [Nat.add_mod]
  rw [Nat.mod_eq_of_lt hi, Nat.mod_eq_of_lt h]

theorem wrap_index_hi (cap base i : Nat) (hcap : 0 < cap) (hi : i < cap)
    (h : cap ≤ base % cap + i) : (base + i) % cap = base % cap + i - cap := by
  have hoff : base % cap < cap := Nat.mod_lt _ hcap
  conv_lhs => rw [Nat.add_mod]
  rw [Nat.mod_eq_of_lt hi, Nat.mod_eq_sub_mod h, Nat.mod_eq_of_lt (by omega)]

theorem spsc_put_cap (s : SpscState α) (data : List α) :
    (spsc_put s data).cap = s.cap := rfl

theorem spsc_put_inC (s : SpscState α) (data : List α) :
    (spsc_put s data).inC = s.inC + data.length := rfl

theorem spsc_put_outC (s : SpscState α) (data : List α) :
    (spsc_put s data).outC = s.outC := rfl

/-- `put` places the `i`-th byte of `data` at storage index
`(in_ + i) % cap`. -/
theorem spsc_put_storage_hit {s : SpscState α} {k : Nat} (hk : s.cap = 2 ^ k)
    (data : List α) (hlen : data.length ≤ s.cap) (i : Nat)
    (hi : i < data.length) :
    data.get? i = some ((spsc_put s data).storage ((s.inC + i) % s.cap)) := by
  have h := wrapWrite_get s.storage s.cap s.inC data (two_pow_cap_pos hk)
    hlen i hi
  simpa [spsc_put, mask_eq_mod hk] using h

/-- `put` leaves every storage index outside the copied range unchanged. -/
theorem spsc_put_storage_frame {s : SpscState α} {k : Nat} (hk : s.cap = 2 ^ k)
    (data : List α) (hlen : data.length ≤ s.cap) (j : Nat) (hj : j < s.cap)
    (hmiss : ∀ i, i < data.length → j ≠ (s.inC + i) % s.cap) :
    (spsc_put s data).storage j = s.storage j := by
  have h := wrapWrite_frame s.storage s.cap s.inC data (two_pow_cap_pos hk)
    hlen j hj hmiss
  simpa [spsc_put, mask_eq_mod hk] using h

/-- The chunk delivered by `get` has length `len` and its `i`-th byte is the
storage content at index `(out_ + i) % cap`. -/
theorem spsc_get_data_spec {s : SpscState α} {k : Nat} (hk : s.cap = 2 ^ k)
    (len : Nat) (hlen : len ≤ s.cap) :
    (spsc_get_data s len).length = len ∧
    ∀ i, i < len → (spsc_get_data s len).get? i
      = some (s.storage ((s.outC + i) % s.cap)) := by
  have hcap : 0 < s.cap := two_pow_cap_pos hk
  have hoff : s.outC % s.cap < s.cap := Nat.mod_lt _ hcap
  simp only [spsc_get_data, mask_eq_mod hk]
  set off := s.outC % s.cap with hoffdef
  set l := min len (s.cap - off) with hldef
  have hll : l ≤ len := min_le_left _ _
  constructor
  · simp only [List.length_append, List.length_map, List.length_range]
    omega
  · intro i hi
    by_cases hil : i < l
    · rw [List.get?_append
        (by simp only [List.length_map, List.length_range]; omega)]
      rw [List.get?_map, List.get?_range hil,
        wrap_index_lo s.cap s.outC i (by omega)]
      rfl
    · rw [List.get?_append_right
        (by simp only [List.length_map, List.length_range]; omega)]
      simp only [List.length_map, List.length_range]
      rw [List.get?_map, List.get?_range (by omega),
        wrap_index_hi s.cap s.outC i hcap (by omega) (by omega)]
      have harith : off + i - s.cap = i - l := by omega
      rw [harith]
      rfl

/-- Completing a `put` under `can_put` preserves the ghost invariant, the
history extended by the written chunk. -/
theorem SpscInv_put {s : SpscState α} {hist : List α} {k : Nat}
    (hinv : SpscInv s hist k) (data : List α)
    (hcan : can_put s data.length = true) :
    SpscInv (spsc_put s data) (hist ++ data) k := by
  obtain ⟨hk, h1, h2, h3, h4⟩ := hinv
  have hcap : 0 < s.cap := two_pow_cap_pos hk
  have hcan' : s.inC + data.length ≤ s.cap + s.outC := by
    simpa [can_put] using hcan
  have hlen : data.length ≤ s.cap := by omega
  refine ⟨hk, by rw [spsc_put_inC, spsc_put_outC]; omega,
    by rw [spsc_put_inC, spsc_put_outC, spsc_put_cap]; omega,
    by rw [spsc_put_inC, List.length_append]; omega, ?_⟩
  intro p hp1 hp2
  rw [spsc_put_outC] at hp1
  rw [spsc_put_inC] at hp2
  rw [spsc_put_cap]
  rcases lt_or_ge p s.inC with hlt | hge
  · rw [List.get?_append (by omega), h4 p hp1 hlt]
    congr 1
    symm
    refine spsc_put_storage_frame hk data hlen (p % s.cap)
      (Nat.mod_lt _ hcap) ?_
    intro i hi heq
    have hdvd : s.cap ∣ (s.inC + i - p) := by
      exact (Nat.modEq_iff_dvd' (by omega)).mp heq
    have := Nat.le_of_dvd (by omega) hdvd
    omega
  · have hhit := spsc_put_storage_hit hk data hlen (p - s.inC) (by omega)
    rw [Nat.add_sub_cancel' hge] at hhit
    rw [List.get?_append_right (by omega), h3, hhit]

/-- Completing a `get` under `can_get` preserves the ghost invariant (history
unchanged), and the delivered chunk is the history segment
`[out_, out_ + len)`. -/
theorem SpscInv_get {s : SpscState α} {hist : List α} {k : Nat}
    (hinv : SpscInv s hist k) (len : Nat)
    (hcan : can_get s len = true) :
    SpscInv (spsc_get' s len) hist k ∧
    (spsc_get_data s len).length = len ∧
    ∀ i, i < len → (spsc_get_data s len).get? i = hist.get? (s.outC + i) := by
  obtain ⟨hk, h1, h2, h3, h4⟩ := hinv
  have hcap : 0 < s.cap := two_pow_cap_pos hk
  have hcan' : len + s.outC ≤ s.inC := by simpa [can_get] using hcan
  have hlen : len ≤ s.cap := by omega
  obtain ⟨hdl, hdg⟩ := spsc_get_data_spec hk len hlen
  refine ⟨⟨hk, by simp [spsc_get']; omega, by simp [spsc_get']; omega,
    by simp [spsc_get']; omega, ?_⟩, hdl, ?_⟩
  · intro p hp1 hp2
    simp only [spsc_get'] at hp1 hp2 ⊢
    exact h4 p (by omega) hp2
  · intro i hi
    rw [hdg i hi, h4 (s.outC + i) (by omega) (by omega)]

/-- Inverting a completed `write`: it ran under `can_put` and performed
`put`. -/
theorem spsc_write_ok {s s' : SpscState α} {data : List α} {u : Unit}
    (h : spsc_write s data = .ok s' u) :
    can_put s data.length = true ∧ s' = spsc_put s data := by
  by_cases h1 : data.length > s.cap
  · simp [spsc_write, h1] at h
  · by_cases h2 : can_put s data.length
    · simp only [spsc_write, if_neg h1, if_pos h2, OpResult.ok.injEq] at h
      exact ⟨h2, h.1.symm⟩
    · simp [spsc_write, h1, h2] at h

/-- Inverting a completed `read`: it ran under `can_get`, advanced `out_` and
returned the `get` chunk. -/
theorem spsc_read_ok {s s' : SpscState α} {len : Nat} {out : List α}
    (h : spsc_read s len = .ok s' out) :
    can_get s len = true ∧ s' = spsc_get' s len ∧ out = spsc_get_data s len := by
  by_cases h1 : can_get s len
  · simp only [spsc_read, if_pos h1, OpResult.ok.injEq] at h
    exact ⟨h1, h.1.symm, h.2.symm⟩
  · simp [spsc_read, h1] at h

theorem seg_append (l : List α) (a b c : Nat) (hab : a ≤ b) (hbc : b ≤ c) :
    (l.take b).drop a ++ (l.take c).drop b = (l.take c).drop a := by
  have e : l.take b ++ (l.take c).drop b = l.take c := by
    have h1 : (l.take c).take b = l.take b := by
      rw [List.take_take, min_eq_left hbc]
    conv_rhs => rw [← List.take_append_drop b (l.take c)]
    rw [h1]
  conv_rhs => rw [← e, List.drop_append_eq_append_drop]
  congr 1
  by_cases hla : a ≤ (l.take b).length
  · rw [Nat.sub_eq_zero_of_le hla, List.drop_zero]
  · have h2 : (l.take c).drop b = [] := by
      apply List.drop_eq_nil_of_le
      simp only [List.length_take] at hla ⊢
      omega
    rw [h2]
    simp

theorem flatten_eq_of_length_eq :
    ∀ (as bs : List (List α)), as.map List.length = bs.map List.length →
      as.flatten = bs.flatten → as = bs := by
  intro as
  induction as with
  | nil =>
    intro bs h1 _
    cases bs with
    | nil => rfl
    | cons b bs => simp at h1
  | cons a as ih =>
    intro bs h1 h2
    cases bs with
    | nil => simp at h1
    | cons b bs =>
      simp only [List.map_cons, List.cons.injEq] at h1
      simp only [List.flatten_cons] at h2
      obtain ⟨e1, e2⟩ := List.append_inj h2 h1.1
      rw [e1, ih bs h1.2 e2]

/-- Master lemma about sequential SPSC executions: the ghost invariant is
maintained with the history extended by the written chunks, each read returns
exactly its requested size, and the concatenated read outputs are the
consumed segment of the history. -/
theorem spscRun_spec {α : Type u} :
    ∀ (ops : List (SOp α)) (s : SpscState α) (hist : List α) (k : Nat)
      (s' : SpscState α) (outs : List (List α)),
      SpscInv s hist k → spscRun s ops = some (s', outs) →
      SpscInv s' (hist ++ (writesOf ops).flatten) k ∧
      s'.outC = s.outC + (readsOf ops).sum ∧
      outs.map List.length = readsOf ops ∧
      outs.flatten = ((hist ++ (writesOf ops).flatten).take s'.outC).drop s.outC := by
  intro ops
  induction ops with
  | nil =>
    intro s hist k s' outs hinv hrun
    simp only [spscRun, Option.some.injEq, Prod.mk.injEq] at hrun
    obtain ⟨rfl, rfl⟩ := hrun
    refine ⟨by simpa [writesOf] using hinv, by simp [readsOf],
      by simp [readsOf], ?_⟩
    simp only [List.flatten_nil]
    symm
    apply List.drop_eq_nil_of_le
    simp only [List.length_take]
    omega
  | cons op rest ih =>
    intro s hist k s' outs hinv hrun
    cases op with
    | wr d =>
      simp only [spscRun] at hrun
      cases hw : spsc_write s d with
      | fatal => rw [hw] at hrun; exact absurd hrun (by simp)
      | block => rw [hw] at hrun; exact absurd hrun (by simp)
      | ok s₁ u =>
        rw [hw] at hrun
        obtain ⟨hcan, hs₁⟩ := spsc_write_ok hw
        subst hs₁
        have hinv₁ := SpscInv_put hinv d hcan
        obtain ⟨ha, hb, hc, hd⟩ := ih (spsc_put s d) (hist ++ d) k s' outs hinv₁ hrun
        refine ⟨?_, ?_, ?_, ?_⟩
        · simpa [writesOf, List.append_assoc] using ha
        · rw [hb, spsc_put_outC, readsOf]
        · rw [hc, readsOf]
        · rw [hd, spsc_put_outC]
          simp [writesOf, List.append_assoc]
    | rd n =>
      simp only [spscRun] at hrun
      cases hr : spsc_read s n with
      | fatal => rw [hr] at hrun; exact absurd hrun (by simp)
      | block => rw [hr] at hrun; exact absurd hrun (by simp)
      | ok s₁ out₀ =>
        rw [hr] at hrun
        dsimp only at hrun
        obtain ⟨hcan, hs₁, hout⟩ := spsc_read_ok hr
        subst hs₁
        subst hout
        cases hrec : spscRun (spsc_get' s n) rest with
        | none => rw [hrec] at hrun; simp at hrun
        | some p =>
          obtain ⟨s'', outs₁⟩ := p
          rw [hrec] at hrun
          simp only [Option.map_some', Option.some.injEq, Prod.mk.injEq] at hrun
          obtain ⟨rfl, rfl⟩ := hrun
          obtain ⟨hinv₁, hlenout, hcharout⟩ := SpscInv_get hinv n hcan
          obtain ⟨ha, hb, hc, hd⟩ := ih (spsc_get' s n) hist k s'' outs₁ hinv₁ hrec
          have hcan' : n + s.outC ≤ s.inC := by simpa [can_get] using hcan
          obtain ⟨hik, hi1, hi2, hi3, hi4⟩ := hinv
          have hb' : s''.outC = s.outC + n + (readsOf rest).sum := by
            simpa [spsc_get'] using hb
          refine ⟨by simpa [writesOf] using ha, ?_, ?_, ?_⟩
          · rw [readsOf, List.sum_cons]
            omega
          · rw [List.map_cons, hc, readsOf, hlenout]
          · rw [List.flatten_cons, hd]
            have hseg : spsc_get_data s n =
                ((hist ++ (writesOf rest).flatten).take (s.outC + n)).drop s.outC := by
              apply List.ext_get?
              intro i
              by_cases hi : i < n
              · rw [hcharout i hi, List.get?_drop, List.get?_take (by omega),
                  List.get?_append (by omega)]
              · rw [List.get?_eq_none.mpr (by omega), List.get?_eq_none.mpr]
                simp only [List.length_drop, List.length_take,
                  List.length_append]
                omega
            rw [hseg]
            have := seg_append (hist ++ (writesOf rest).flatten) s.outC
              (s.outC + n) s''.outC (by omega) (by omega)
            simpa [spsc_get', writesOf] using this

/-!
MPMC embedding.  `ringbuffer_mpmc` keeps four cursors: `in_` (reserved-in),
`real_in_` (committed-in), `out_` (reserved-out), `real_out_` (committed-out).
A `put` call loops: optionally cv-wait, read `in_` as `expected_in`, bail out
and retry when `expected_in + len > buf_size_ + real_out_` or when the
`compare_exchange_weak` on `in_` loses a race; on success copy, then loop a
CAS on `real_in_` from `expected_in` to `expected_in + len` until it lands.
`get` is symmetric against `real_in_` / `out_` / `real_out_`.

The concurrent system is modelled as a labelled step relation over the four
cursors plus ghost lists `pendW`/`pendR` of the in-flight reservations
(`(start, len)` pairs in reservation order): a *reserve* step is one loop
iteration whose availability check and CAS both succeed, a *commit* step is
the one iteration of the commit-CAS loop that succeeds (it requires the
committed cursor to equal the reservation's start, exactly as
`compare_exchange_weak(expected, expected + len)` does).  Claims about
"completed" operations are statements about these steps.
-/

structure MpmcState where
  cap : Nat
  enable_cv : Bool
  in_ : Nat
  real_in : Nat
  out_ : Nat
  real_out : Nat
  pendW : List (Nat × Nat)
  pendR : List (Nat × Nat)
  deriving DecidableEq

/-- `ringbuffer_mpmc::ringbuffer_mpmc(buf_size, enable_cv)`: all four cursors
start at zero; as in the SPSC case the only check in the source is
`assert(buffer_)` on the `malloc` result, never on the capacity. -/
def ringbuffer_mpmc_mk (buf_size : Nat) (enable_cv : Bool) : MpmcState :=
  { cap := buf_size, enable_cv := enable_cv, in_ := 0, real_in := 0,
    out_ := 0, real_out := 0, pendW := [], pendR := [] }

/-- `ringbuffer_mpmc::get_total_in`: acquire-load of `real_in_`. -/
def mpmc_get_total_in (s : MpmcState) : Nat := s.real_in

/-- `ringbuffer_mpmc::get_total_out`: acquire-load of `real_out_`. -/
def mpmc_get_total_out (s : MpmcState) : Nat := s.real_out

/-- One attempt of the commit loop
`while (!real_in_.compare_exchange_weak(expected, expected + len, ...))`:
it succeeds (storing `expected_bak + len`) exactly when the cursor currently
equals `expected_bak`, and otherwise leaves the cursor unchanged — it never
overwrites unconditionally. -/
def commit_cas_attempt (cur expected_bak len : Nat) : Nat :=
  if cur = expected_bak then expected_bak + len else cur

/-- The four kinds of completed steps of `put`/`get`. -/
inductive MLabel where
  | reserveIn (len : Nat)
  | commitIn (start len : Nat)
  | reserveOut (len : Nat)
  | commitOut (start len : Nat)
  deriving DecidableEq

/-- Labelled step relation of the MPMC buffer (see the section comment). -/
inductive MpmcStep : MLabel → MpmcState → MpmcState → Prop where
  | reserveIn (s : MpmcState) (len : Nat)
      (havail : s.in_ + len ≤ s.cap + s.real_out) :
      MpmcStep (.reserveIn len) s
        { s with in_ := s.in_ + len, pendW := s.pendW ++ [(s.in_, len)] }
  | commitIn (s : MpmcState) (start len : Nat)
      (hmem : (start, len) ∈ s.pendW) (hcas : s.real_in = start) :
      MpmcStep (.commitIn start len) s
        { s with real_in := start + len, pendW := s.pendW.erase (start, len) }
  | reserveOut (s : MpmcState) (len : Nat)
      (havail : s.out_ + len ≤ s.real_in) :
      MpmcStep (.reserveOut len) s
        { s with out_ := s.out_ + len, pendR := s.pendR ++ [(s.out_, len)] }
  | commitOut (s : MpmcState) (start len : Nat)
      (hmem : (start, len) ∈ s.pendR) (hcas : s.real_out = start) :
      MpmcStep (.commitOut start len) s
        { s with real_out := start + len, pendR := s.pendR.erase (start, len) }

/-- Inductive invariant of the MPMC cursors: power-of-two capacity, the
cursor chain `real_out_ ≤ out_ ≤ real_in_ ≤ in_ ≤ real_out_ + buf_size_`,
and bounds on every in-flight reservation. -/
structure MpmcInv (s : MpmcState) : Prop where
  pow : ∃ k, s.cap = 2 ^ k
  h1 : s.real_out ≤ s.out_
  h2 : s.out_ ≤ s.real_in
  h3 : s.real_in ≤ s.in_
  h4 : s.in_ ≤ s.real_out + s.cap
  hW : ∀ e ∈ s.pendW, e.1 + e.2 ≤ s.in_ ∧ e.1 + e.2 ≤ s.cap + s.real_out
  hR : ∀ e ∈ s.pendR, e.1 + e.2 ≤ s.out_ ∧ e.1 + e.2 ≤ s.real_in

theorem MpmcInv_init (cap : Nat) (ecv : Bool) (k : Nat) (hk : cap = 2 ^ k) :
    MpmcInv (ringbuffer_mpmc_mk cap ecv) := by
  refine ⟨⟨k, hk⟩, ?_, ?_, ?_, ?_, ?_, ?_⟩ <;>
    simp [ringbuffer_mpmc_mk]

theorem MpmcInv_step {lbl : MLabel} {s s' : MpmcState}
    (hinv : MpmcInv s) (hstep : MpmcStep lbl s s') : MpmcInv s' := by
  obtain ⟨hpow, h1, h2, h3, h4, hW, hR⟩ := hinv
  cases hstep with
  | reserveIn s len havail =>
    refine ⟨hpow, h1, h2, by simp; omega, by simp; omega, ?_, ?_⟩
    · intro e he
      simp only [List.mem_append, List.mem_singleton] at he
      rcases he with he | rfl
      · have := hW e he
        simp only
        omega
      · simp only
        omega
    · intro e he
      have := hR e he
      simp only
      omega
  | commitIn s start len hmem hcas =>
    have hse := hW _ hmem
    refine ⟨hpow, h1, by simp; omega, by simp; omega, by simp; omega, ?_, ?_⟩
    · intro e he
      have := hW e (List.mem_of_mem_erase he)
      simp only
      omega
    · intro e he
      have := hR e he
      simp only
      omega
  | reserveOut s len havail =>
    refine ⟨hpow, by simp; omega, by simp; omega, h3, h4, ?_, ?_⟩
    · intro e he
      have := hW e he
      simp only
      omega
    · intro e he
      simp only [List.mem_append, List.mem_singleton] at he
      rcases he with he | rfl
      · have := hR e he
        simp only
        omega
      · simp only
        omega
  | commitOut s start len hmem hcas =>
    have hse := hR _ hmem
    refine ⟨hpow, by simp; omega, h2, h3, by simp; omega, ?_, ?_⟩
    · intro e he
      have := hW e he
      simp only
      omega
    · intro e he
      have := hR e (List.mem_of_mem_erase he)
      simp only
      omega

/-- `chained a l b`: the reservation segments in `l` tile the byte range
`[a, b)` consecutively, in list order. -/
def chained : Nat → List (Nat × Nat) → Nat → Prop
  | a, [], b => a = b
  | a, e :: t, b => e.1 = a ∧ chained (a + e.2) t b

theorem chained_append_single {l : List (Nat × Nat)} {a b : Nat}
    (h : chained a l b) (len : Nat) :
    chained a (l ++ [(b, len)]) (b + len) := by
  induction l generalizing a with
  | nil => simp only [chained] at h; subst h; exact ⟨rfl, rfl⟩
  | cons e t ih => exact ⟨h.1, ih h.2⟩

theorem chained_mem_start_ge {l : List (Nat × Nat)} {a b : Nat}
    (h : chained a l b) {e : Nat × Nat} (hmem : e ∈ l) : a ≤ e.1 := by
  induction l generalizing a with
  | nil => simp at hmem
  | cons f t ih =>
    rcases List.mem_cons.mp hmem with rfl | hmem'
    · exact le_of_eq h.1.symm
    · exact le_trans (Nat.le_add_right a f.2) (ih h.2 hmem')

theorem chained_sum {l : List (Nat × Nat)} {a b : Nat} (h : chained a l b) :
    a + (l.map fun e => e.2).sum = b := by
  induction l generalizing a with
  | nil => simpa [chained] using h
  | cons e t ih =>
    have := ih h.2
    simp only [List.map_cons, List.sum_cons]
    omega

/-- Under positivity of the pending lengths, the only pending reservation a
successful commit CAS can belong to is the head of the pending list. -/
theorem chained_mem_head {l : List (Nat × Nat)} {a b : Nat}
    (h : chained a l b) (hpos : ∀ e ∈ l, 1 ≤ e.2) {st ln : Nat}
    (hmem : (st, ln) ∈ l) (hst : st = a) : l.head? = some (st, ln) := by
  cases l with
  | nil => simp at hmem
  | cons f t =>
    rcases List.mem_cons.mp hmem with he | hmem'
    · rw [← he]; rfl
    · exfalso
      have hf1 : f.1 = a := h.1
      have hfpos : 1 ≤ f.2 := hpos f (List.mem_cons_self f t)
      have := chained_mem_start_ge h.2 hmem'
      simp only at this
      omega

/-- Ghost invariant for the reservation/commit protocol: the pending write
reservations tile `[real_in_, in_)` in reservation order and the pending read
reservations tile `[real_out_, out_)`, all with positive length. -/
def MpmcPending (s : MpmcState) : Prop :=
  chained s.real_in s.pendW s.in_ ∧ chained s.real_out s.pendR s.out_ ∧
  (∀ e ∈ s.pendW, 1 ≤ e.2) ∧ (∀ e ∈ s.pendR, 1 ≤ e.2)

/-- Labels whose reserve length is positive (commits are unrestricted). -/
def MLabel.posLen : MLabel → Prop
  | .reserveIn len => 1 ≤ len
  | .reserveOut len => 1 ≤ len
  | _ => True

theorem MpmcPending_step {lbl : MLabel} {s s' : MpmcState}
    (hp : MpmcPending s) (hstep : MpmcStep lbl s s') (hpos : lbl.posLen) :
    MpmcPending s' := by
  obtain ⟨hw, hr, hwpos, hrpos⟩ := hp
  cases hstep with
  | reserveIn s len havail =>
    refine ⟨chained_append_single hw len, hr, ?_, hrpos⟩
    intro e he
    rcases List.mem_append.mp he with he' | he'
    · exact hwpos e he'
    · rcases List.mem_singleton.mp he' with rfl
      exact hpos
  | commitIn s start len hmem hcas =>
    have hhead := chained_mem_head hw hwpos hmem hcas.symm
    obtain ⟨t, hsh⟩ : ∃ t, s.pendW = (start, len) :: t := by
      cases hl : s.pendW with
      | nil => rw [hl] at hhead; simp at hhead
      | cons f t =>
        rw [hl] at hhead
        simp only [List.head?_cons, Option.some.injEq] at hhead
        exact ⟨t, by rw [hhead]⟩
    rw [hsh] at hw hwpos
    refine ⟨?_, hr, ?_, hrpos⟩
    · simp only [hsh, List.erase_cons_head]
      have h2 := hw.2
      simp only at h2
      rw [hcas] at h2
      exact h2
    · intro e he
      simp only [hsh, List.erase_cons_head] at he
      exact hwpos e (List.mem_cons_of_mem _ he)
  | reserveOut s len havail =>
    refine ⟨hw, chained_append_single hr len, hwpos, ?_⟩
    intro e he
    rcases List.mem_append.mp he with he' | he'
    · exact hrpos e he'
    · rcases List.mem_singleton.mp he' with rfl
      exact hpos
  | commitOut s start len hmem hcas =>
    have hhead := chained_mem_head hr hrpos hmem hcas.symm
    obtain ⟨t, hsh⟩ : ∃ t, s.pendR = (start, len) :: t := by
      cases hl : s.pendR with
      | nil => rw [hl] at hhead; simp at hhead
      | cons f t =>
        rw [hl] at hhead
        simp only [List.head?_cons, Option.some.injEq] at hhead
        exact ⟨t, by rw [hhead]⟩
    rw [hsh] at hr hrpos
    refine ⟨hw, ?_, hwpos, ?_⟩
    · simp only [hsh, List.erase_cons_head]
      have h2 := hr.2
      simp only at h2
      rw [hcas] at h2
      exact h2
    · intro e he
      simp only [hsh, List.erase_cons_head] at he
      exact hrpos e (List.mem_cons_of_mem _ he)

theorem MpmcPending_init (cap : Nat) (ecv : Bool) :
    MpmcPending (ringbuffer_mpmc_mk cap ecv) := by
  refine ⟨rfl, rfl, ?_, ?_⟩ <;> simp [ringbuffer_mpmc_mk]

theorem SpscInv_init (k : Nat) (ecv : Bool) (g : Nat → α) :
    SpscInv (ringbuffer_spsc_mk (2 ^ k) ecv g) [] k := by
  refine ⟨rfl, le_refl 0, by simp [ringbuffer_spsc_mk], rfl, ?_⟩
  intro p h1 h2
  simp [ringbuffer_spsc_mk] at h2

/-- C1.  Round-trip: over a power-of-two-capacity SPSC buffer, for chunks of
length at most the capacity, any completed interleaving that writes the
chunks in order and reads the same chunk sizes in order returns byte-identical
content; and the concrete capacity-16 Blocking-mode scenario writes
`"ABCDEFGHIJ"` (10 bytes), reads 10 bytes back identically, with both totals
equal to 10. -/
theorem spsc_round_trip (α : Type) (k : Nat) (ecv : Bool) (g : Nat → α)
    (cs : List (List α)) (ops : List (SOp α)) (outs : List (List α))
    (hcs : ∀ c ∈ cs, c.length ≤ 2 ^ k)
    (hw : writesOf ops = cs) (hr : readsOf ops = cs.map List.length)
    (hrun : spscRunOuts (ringbuffer_spsc_mk (2 ^ k) ecv g) ops = some outs) :
    outs = cs ∧
    (spscRun (ringbuffer_spsc_mk 16 true (fun _ => 'Z'))
        [SOp.wr "ABCDEFGHIJ".toList, SOp.rd 10]).map
        (fun p => (spsc_get_total_in p.1, spsc_get_total_out p.1, p.2))
      = some (10, 10, ["ABCDEFGHIJ".toList]) := by
  refine ⟨?_, by decide⟩
  obtain ⟨p, hp, rfl⟩ : ∃ p, spscRun (ringbuffer_spsc_mk (2 ^ k) ecv g) ops
      = some p ∧ outs = p.2 := by
    cases hq : spscRun (ringbuffer_spsc_mk (2 ^ k) ecv g) ops with
    | none => rw [spscRunOuts, hq] at hrun; simp at hrun
    | some p =>
      rw [spscRunOuts, hq] at hrun
      simp only [Option.map_some', Option.some.injEq] at hrun
      exact ⟨p, rfl, hrun.symm⟩
  obtain ⟨s', outs'⟩ := p
  obtain ⟨hinv', houtC, hlens, hflat⟩ :=
    spscRun_spec ops _ [] k s' outs' (SpscInv_init k ecv g) hp
  rw [hw] at hflat
  rw [hr] at houtC hlens
  have houtC' : s'.outC = cs.flatten.length := by
    rw [List.length_flatten]
    simpa [ringbuffer_spsc_mk] using houtC
  rw [List.nil_append, houtC', List.take_length] at hflat
  simp only [ringbuffer_spsc_mk, List.drop_zero] at hflat
  exact flatten_eq_of_length_eq _ _ hlens hflat

/-- Witness for `spsc_round_trip`: capacity `2^2`, chunks `[[1,2],[3]]`,
interleaving write–read–write–read. -/
theorem spsc_round_trip_witness :
    ([[1, 2], [3]] : List (List Nat)) = [[1, 2], [3]] ∧
    (spscRun (ringbuffer_spsc_mk 16 true (fun _ => 'Z'))
        [SOp.wr "ABCDEFGHIJ".toList, SOp.rd 10]).map
        (fun p => (spsc_get_total_in p.1, spsc_get_total_out p.1, p.2))
      = some (10, 10, ["ABCDEFGHIJ".toList]) :=
  spsc_round_trip Nat 2 false (fun _ => 0) [[1, 2], [3]]
    [SOp.wr [1, 2], SOp.rd 2, SOp.wr [3], SOp.rd 1] [[1, 2], [3]]
    (by decide) (by decide) (by decide) (by decide)

/-- C5.  Functional contract of one completed SPSC `write` and `read` in a
state satisfying the cursor chain: a completed `write` requires
`in + len ≤ out + capacity`, stores byte `i` at offset `(in + i) mod capacity`
(wrapping), touches no other storage index, and advances `in` by exactly
`len`; a completed `read` requires `in ≥ out + len`, returns the `len` bytes
at offsets `(out + i) mod capacity`, leaves storage untouched, and advances
`out` by exactly `len`. -/
theorem spsc_step_functional (α : Type) (s : SpscState α) (k : Nat)
    (data : List α) (len : Nat)
    (hk : s.cap = 2 ^ k) (h1 : s.outC ≤ s.inC) (h2 : s.inC ≤ s.outC + s.cap)
    (hdlen : data.length ≤ s.cap) (hrlen : len ≤ s.cap) :
    (∀ s' u, spsc_write s data = .ok s' u →
       s.inC + data.length ≤ s.outC + s.cap ∧
       s'.inC = s.inC + data.length ∧ s'.outC = s.outC ∧ s'.cap = s.cap ∧
       (∀ i, i < data.length →
          data.get? i = some (s'.storage ((s.inC + i) % s.cap))) ∧
       (∀ j, j < s.cap → (∀ i, i < data.length → j ≠ (s.inC + i) % s.cap) →
          s'.storage j = s.storage j)) ∧
    (∀ s' out, spsc_read s len = .ok s' out →
       s.outC + len ≤ s.inC ∧
       s'.outC = s.outC + len ∧ s'.inC = s.inC ∧ s'.storage = s.storage ∧
       out.length = len ∧
       (∀ i, i < len → out.get? i = some (s.storage ((s.outC + i) % s.cap)))) := by
  constructor
  · intro s' u hok
    obtain ⟨hcan, rfl⟩ := spsc_write_ok hok
    have hcan' : s.inC + data.length ≤ s.cap + s.outC := by
      simpa [can_put] using hcan
    refine ⟨by omega, spsc_put_inC s data, spsc_put_outC s data,
      spsc_put_cap s data, ?_, ?_⟩
    · intro i hi
      exact spsc_put_storage_hit hk data hdlen i hi
    · intro j hj hmiss
      exact spsc_put_storage_frame hk data hdlen j hj hmiss
  · intro s' out hok
    obtain ⟨hcan, rfl, rfl⟩ := spsc_read_ok hok
    have hcan' : len + s.outC ≤ s.inC := by simpa [can_get] using hcan
    obtain ⟨hdl, hdg⟩ := spsc_get_data_spec hk len hrlen
    exact ⟨by omega, rfl, rfl, rfl, hdl, hdg⟩

/-- Witness for `spsc_step_functional`: capacity `2^1`, one write of `[5]`
from the initial state. -/
theorem spsc_step_functional_witness :
    (spsc_put (ringbuffer_spsc_mk (2 ^ 1) false (fun _ => (0 : Nat))) [5]).inC
      = (ringbuffer_spsc_mk (2 ^ 1) false (fun _ => (0 : Nat))).inC + 1 ∧
    ([5] : List Nat).get? 0 = some ((spsc_put (ringbuffer_spsc_mk (2 ^ 1) false
        (fun _ => (0 : Nat))) [5]).storage ((0 + 0) % 2 ^ 1)) := by
  have h := (spsc_step_functional Nat
      (ringbuffer_spsc_mk (2 ^ 1) false (fun _ => (0 : Nat)))
      1 [5] 1 rfl (by decide) (by decide) (by decide) (by decide)).1
      (spsc_put (ringbuffer_spsc_mk (2 ^ 1) false (fun _ => (0 : Nat))) [5]) ()
      (by rfl)
  exact ⟨h.2.1, h.2.2.2.2.1 0 (by decide)⟩

/-- C7.  Starting from the all-zero initial SPSC state, after any completed
sequence of operations the totals satisfy the conservation invariant:
`total_bytes_read() ≤ total_bytes_written()` and the difference never exceeds
the capacity (equivalently `out ≤ in ≤ out + capacity`). -/
theorem spsc_conservation (α : Type) (k : Nat) (ecv : Bool) (g : Nat → α)
    (ops : List (SOp α)) (t : Nat × Nat)
    (ht : (spscRun (ringbuffer_spsc_mk (2 ^ k) ecv g) ops).map
        (fun p => (spsc_get_total_in p.1, spsc_get_total_out p.1)) = some t) :
    t.2 ≤ t.1 ∧ t.1 ≤ t.2 + 2 ^ k := by
  cases hq : spscRun (ringbuffer_spsc_mk (2 ^ k) ecv g) ops with
  | none => rw [hq] at ht; simp at ht
  | some p =>
    rw [hq] at ht
    simp only [Option.map_some', Option.some.injEq] at ht
    obtain ⟨s', outs⟩ := p
    obtain ⟨⟨hik, hi1, hi2, -, -⟩, -, -, -⟩ :=
      spscRun_spec ops _ [] k s' outs (SpscInv_init k ecv g) hq
    subst ht
    rw [hik] at hi2
    exact ⟨hi1, hi2⟩

/-- Witness for `spsc_conservation`: capacity `2^0`, one write then one
read of a single byte. -/
theorem spsc_conservation_witness :
    ((1, 1) : Nat × Nat).2 ≤ ((1, 1) : Nat × Nat).1 ∧
    ((1, 1) : Nat × Nat).1 ≤ ((1, 1) : Nat × Nat).2 + 2 ^ 0 :=
  spsc_conservation Nat 0 false (fun _ => 0) [SOp.wr [9], SOp.rd 1] (1, 1)
    (by decide)

/-- C8.  `ringbuffer_spsc::write` with a length exceeding the capacity hits
the oversize check first (`printf` diagnostic + `assert(false)`), aborting
fatally before any waiting or copying: the result is `fatal`, so no state
with moved cursors or modified storage is ever produced. -/
theorem spsc_write_oversize_fatal (α : Type) (s : SpscState α)
    (data : List α) (h : s.cap < data.length) :
    spsc_write s data = .fatal := by
  simp [spsc_write, h]

/-- Witness for `spsc_write_oversize_fatal`: a 17-byte write into a
capacity-16 buffer. -/
theorem spsc_write_oversize_fatal_witness :
    spsc_write (ringbuffer_spsc_mk 16 true (fun _ => (0 : Nat)))
      (List.replicate 17 0) = .fatal :=
  spsc_write_oversize_fatal Nat _ _ (by decide)

/-- C9.  The totals are monotone: a completed SPSC `write` adds exactly its
length to `total_in` and does not touch `total_out` (and symmetrically for
`read`); an MPMC commit-in step adds exactly the committed length to
`real_in_` and does not touch `real_out_` (and symmetrically for commit-out);
reservation steps touch neither total; and no step of either variant ever
decreases a total. -/
theorem totals_monotone (α : Type) :
    (∀ (s s' : SpscState α) (data : List α) (u : Unit),
       spsc_write s data = .ok s' u →
       spsc_get_total_in s' = spsc_get_total_in s + data.length ∧
       spsc_get_total_out s' = spsc_get_total_out s) ∧
    (∀ (s s' : SpscState α) (len : Nat) (out : List α),
       spsc_read s len = .ok s' out →
       spsc_get_total_out s' = spsc_get_total_out s + len ∧
       spsc_get_total_in s' = spsc_get_total_in s) ∧
    (∀ (lbl : MLabel) (m m' : MpmcState), MpmcStep lbl m m' →
       mpmc_get_total_in m ≤ mpmc_get_total_in m' ∧
       mpmc_get_total_out m ≤ mpmc_get_total_out m') ∧
    (∀ (m m' : MpmcState) (start len : Nat),
       MpmcStep (.commitIn start len) m m' →
       mpmc_get_total_in m' = mpmc_get_total_in m + len ∧
       mpmc_get_total_out m' = mpmc_get_total_out m) ∧
    (∀ (m m' : MpmcState) (start len : Nat),
       MpmcStep (.commitOut start len) m m' →
       mpmc_get_total_out m' = mpmc_get_total_out m + len ∧
       mpmc_get_total_in m' = mpmc_get_total_in m) ∧
    (∀ (m m' : MpmcState) (len : Nat), MpmcStep (.reserveIn len) m m' →
       mpmc_get_total_in m' = mpmc_get_total_in m ∧
       mpmc_get_total_out m' = mpmc_get_total_out m) ∧
    (∀ (m m' : MpmcState) (len : Nat), MpmcStep (.reserveOut len) m m' →
       mpmc_get_total_in m' = mpmc_get_total_in m ∧
       mpmc_get_total_out m' = mpmc_get_total_out m) := by
  refine ⟨?_, ?_, ?_, ?_, ?_, ?_, ?_⟩
  · intro s s' data u hok
    obtain ⟨-, rfl⟩ := spsc_write_ok hok
    exact ⟨spsc_put_inC s data, spsc_put_outC s data⟩
  · intro s s' len out hok
    obtain ⟨-, rfl, -⟩ := spsc_read_ok hok
    exact ⟨rfl, rfl⟩
  · intro lbl m m' h
    cases h with
    | reserveIn s len h1 => exact ⟨le_refl _, le_refl _⟩
    | commitIn s start len hmem hcas =>
      refine ⟨?_, le_refl _⟩
      simp only [mpmc_get_total_in]
      omega
    | reserveOut s len h1 => exact ⟨le_refl _, le_refl _⟩
    | commitOut s start len hmem hcas =>
      refine ⟨le_refl _, ?_⟩
      simp only [mpmc_get_total_out]
      omega
  · intro m m' start len h
    cases h with
    | commitIn s start len hmem hcas =>
      refine ⟨?_, rfl⟩
      simp only [mpmc_get_total_in]
      omega
  · intro m m' start len h
    cases h with
    | commitOut s start len hmem hcas =>
      refine ⟨?_, rfl⟩
      simp only [mpmc_get_total_out]
      omega
  · intro m m' len h
    cases h with
    | reserveIn s len h1 => exact ⟨rfl, rfl⟩
  · intro m m' len h
    cases h with
    | reserveOut s len h1 => exact ⟨rfl, rfl⟩

/-- Witness for `totals_monotone`: one completed write of `[7]` on a
capacity-2 SPSC buffer. -/
theorem totals_monotone_witness :
    spsc_get_total_in (spsc_put (ringbuffer_spsc_mk 2 false
        (fun _ => (0 : Nat))) [7])
      = spsc_get_total_in (ringbuffer_spsc_mk 2 false (fun _ => (0 : Nat))) + 1 ∧
    spsc_get_total_out (spsc_put (ringbuffer_spsc_mk 2 false
        (fun _ => (0 : Nat))) [7])
      = spsc_get_total_out (ringbuffer_spsc_mk 2 false (fun _ => (0 : Nat))) :=
  (totals_monotone Nat).1 _ _ [7] () (by rfl)

theorem memcpySeg_nil (st : Nat → α) (dst : Nat) :
    memcpySeg st dst ([] : List α) = st := by
  funext j
  simp [memcpySeg]

theorem spsc_put_nil (s : SpscState α) : spsc_put s [] = s := by
  simp [spsc_put, memcpySeg_nil]

/-- C10.  Zero-length operations: in any SPSC state satisfying the cursor
chain, `write(buf, 0)` and `read(buf, 0)` find their availability predicates
trivially true and complete at once, returning the state unchanged (cursors,
totals, and storage); in any MPMC state satisfying the cursor invariant the
zero-length availability checks of `put` and `get` hold, the zero-length
reservation steps are enabled, and every step of a zero-length operation
leaves all four cursors (hence both totals) unchanged. -/
theorem zero_length_noop (α : Type) :
    (∀ s : SpscState α, s.outC ≤ s.inC → s.inC ≤ s.outC + s.cap →
       can_put s 0 = true ∧ can_get s 0 = true ∧
       spsc_write s [] = .ok s () ∧ spsc_read s 0 = .ok s []) ∧
    (∀ m : MpmcState, MpmcInv m →
       m.in_ + 0 ≤ m.cap + m.real_out ∧ m.out_ + 0 ≤ m.real_in ∧
       (∃ m', MpmcStep (.reserveIn 0) m m') ∧
       (∃ m', MpmcStep (.reserveOut 0) m m')) ∧
    (∀ m m' : MpmcState, MpmcStep (.reserveIn 0) m m' →
       m'.in_ = m.in_ ∧ m'.real_in = m.real_in ∧ m'.out_ = m.out_ ∧
       m'.real_out = m.real_out) ∧
    (∀ (m m' : MpmcState) (start : Nat), MpmcStep (.commitIn start 0) m m' →
       m'.in_ = m.in_ ∧ m'.real_in = m.real_in ∧ m'.out_ = m.out_ ∧
       m'.real_out = m.real_out) ∧
    (∀ m m' : MpmcState, MpmcStep (.reserveOut 0) m m' →
       m'.in_ = m.in_ ∧ m'.real_in = m.real_in ∧ m'.out_ = m.out_ ∧
       m'.real_out = m.real_out) ∧
    (∀ (m m' : MpmcState) (start : Nat), MpmcStep (.commitOut start 0) m m' →
       m'.in_ = m.in_ ∧ m'.real_in = m.real_in ∧ m'.out_ = m.out_ ∧
       m'.real_out = m.real_out) := by
  refine ⟨?_, ?_, ?_, ?_, ?_, ?_⟩
  · intro s h1 h2
    have hcp : can_put s 0 = true := by
      simp only [can_put, decide_eq_true_eq]
      omega
    have hcg : can_get s 0 = true := by
      simp only [can_get, decide_eq_true_eq]
      omega
    refine ⟨hcp, hcg, ?_, ?_⟩
    · rw [spsc_write]
      simp only [List.length_nil]
      rw [if_neg (by simp), if_pos hcp, spsc_put_nil]
    · rw [spsc_read, if_pos hcg,
        show spsc_get' s 0 = s by simp [spsc_get'],
        show spsc_get_data s 0 = [] by simp [spsc_get_data]]
  · intro m hinv
    obtain ⟨-, h1, h2, h3, h4, -, -⟩ := hinv
    refine ⟨by omega, by omega, ?_, ?_⟩
    · exact ⟨_, MpmcStep.reserveIn m 0 (by omega)⟩
    · exact ⟨_, MpmcStep.reserveOut m 0 (by omega)⟩
  · intro m m' h
    cases h with
    | reserveIn s len h1 => exact ⟨rfl, rfl, rfl, rfl⟩
  · intro m m' start h
    cases h with
    | commitIn s start len hmem hcas =>
      exact ⟨rfl, by simp only; omega, rfl, rfl⟩
  · intro m m' h
    cases h with
    | reserveOut s len h1 => exact ⟨rfl, rfl, rfl, rfl⟩
  · intro m m' start h
    cases h with
    | commitOut s start len hmem hcas =>
      exact ⟨rfl, rfl, rfl, by simp only; omega⟩

/-- Witness for `zero_length_noop`: the capacity-4 initial SPSC state. -/
theorem zero_length_noop_witness :
    can_put (ringbuffer_spsc_mk 4 false (fun _ => (0 : Nat))) 0 = true ∧
    can_get (ringbuffer_spsc_mk 4 false (fun _ => (0 : Nat))) 0 = true ∧
    spsc_write (ringbuffer_spsc_mk 4 false (fun _ => (0 : Nat))) []
      = .ok (ringbuffer_spsc_mk 4 false (fun _ => (0 : Nat))) () ∧
    spsc_read (ringbuffer_spsc_mk 4 false (fun _ => (0 : Nat))) 0
      = .ok (ringbuffer_spsc_mk 4 false (fun _ => (0 : Nat))) [] :=
  (zero_length_noop Nat).1 (ringbuffer_spsc_mk 4 false (fun _ => (0 : Nat)))
    (by decide) (by decide)

/-- C2.  The MPMC cursor chain
`real_out_ ≤ out_ ≤ real_in_ ≤ in_ ≤ real_out_ + buf_size_` holds in the
all-zero initial state of a power-of-two-capacity buffer, is preserved by
every completed reservation and commit step of `put` and of `get`, and
implies the conservation property of the totals. -/
theorem mpmc_cursor_invariant (k : Nat) (ecv : Bool) :
    MpmcInv (ringbuffer_mpmc_mk (2 ^ k) ecv) ∧
    (∀ (lbl : MLabel) (s s' : MpmcState), MpmcInv s → MpmcStep lbl s s' →
       MpmcInv s') ∧
    (∀ s : MpmcState, MpmcInv s →
       s.real_out ≤ s.out_ ∧ s.out_ ≤ s.real_in ∧ s.real_in ≤ s.in_ ∧
       s.in_ ≤ s.real_out + s.cap ∧
       mpmc_get_total_out s ≤ mpmc_get_total_in s ∧
       mpmc_get_total_in s - mpmc_get_total_out s ≤ s.cap) := by
  refine ⟨MpmcInv_init _ ecv k rfl, ?_, ?_⟩
  · intro lbl s s' hinv hstep
    exact MpmcInv_step hinv hstep
  · intro s hinv
    obtain ⟨-, h1, h2, h3, h4, -, -⟩ := hinv
    refine ⟨h1, h2, h3, h4, ?_, ?_⟩ <;>
      simp only [mpmc_get_total_in, mpmc_get_total_out] <;> omega

/-- Witness for `mpmc_cursor_invariant`: the state after one reservation of
3 bytes on a capacity-4 buffer. -/
theorem mpmc_cursor_invariant_witness :
    MpmcInv (MpmcState.mk (2 ^ 2) false 3 0 0 0 [(0, 3)] []) :=
  (mpmc_cursor_invariant 2 false).2.1 (.reserveIn 3) _ _
    (mpmc_cursor_invariant 2 false).1
    (MpmcStep.reserveIn (ringbuffer_mpmc_mk (2 ^ 2) false) 3 (by decide))

/-- C6.  The commit protocol of the MPMC buffer: one attempt of the commit
CAS loop never decreases the committed cursor and advances it only from
exactly its expected value by exactly `len`; no step decreases a committed
total; with positive-length reservations the pending lists tile the
reserved-but-uncommitted byte range gap-free in reservation order, a
successful commit always belongs to the earliest uncommitted reservation
(the head of the pending list) and advances the committed cursor by exactly
that reservation's length, so the committed range is always a gap-free
prefix (`real_in_` plus the pending lengths equals `in_`). -/
theorem mpmc_commit_in_order (cap0 : Nat) (ecv : Bool) :
    (∀ cur eb len : Nat, cur ≤ commit_cas_attempt cur eb len ∧
       (cur = eb → commit_cas_attempt cur eb len = cur + len) ∧
       (cur ≠ eb → commit_cas_attempt cur eb len = cur)) ∧
    (∀ (lbl : MLabel) (s s' : MpmcState), MpmcStep lbl s s' →
       mpmc_get_total_in s ≤ mpmc_get_total_in s' ∧
       mpmc_get_total_out s ≤ mpmc_get_total_out s') ∧
    MpmcPending (ringbuffer_mpmc_mk cap0 ecv) ∧
    (∀ (lbl : MLabel) (s s' : MpmcState), MpmcPending s → MpmcStep lbl s s' →
       lbl.posLen → MpmcPending s') ∧
    (∀ s : MpmcState, MpmcPending s →
       s.real_in + (s.pendW.map fun e => e.2).sum = s.in_ ∧
       s.real_out + (s.pendR.map fun e => e.2).sum = s.out_) ∧
    (∀ (s s' : MpmcState) (start len : Nat), MpmcPending s →
       MpmcStep (.commitIn start len) s s' →
       s.pendW.head? = some (start, len) ∧
       s'.real_in = s.real_in + len ∧ s'.pendW = s.pendW.tail) ∧
    (∀ (s s' : MpmcState) (start len : Nat), MpmcPending s →
       MpmcStep (.commitOut start len) s s' →
       s.pendR.head? = some (start, len) ∧
       s'.real_out = s.real_out + len ∧ s'.pendR = s.pendR.tail) := by
  refine ⟨?_, ?_, MpmcPending_init cap0 ecv, ?_, ?_, ?_, ?_⟩
  · intro cur eb len
    refine ⟨?_, ?_, ?_⟩
    · rw [commit_cas_attempt]
      split <;> omega
    · intro h
      rw [commit_cas_attempt, if_pos h, h]
    · intro h
      rw [commit_cas_attempt, if_neg h]
  · intro lbl s s' h
    cases h with
    | reserveIn s len h1 => exact ⟨le_refl _, le_refl _⟩
    | commitIn s start len hmem hcas =>
      refine ⟨?_, le_refl _⟩
      simp only [mpmc_get_total_in]
      omega
    | reserveOut s len h1 => exact ⟨le_refl _, le_refl _⟩
    | commitOut s start len hmem hcas =>
      refine ⟨le_refl _, ?_⟩
      simp only [mpmc_get_total_out]
      omega
  · intro lbl s s' hp hstep hpos
    exact MpmcPending_step hp hstep hpos
  · intro s hp
    exact ⟨chained_sum hp.1, chained_sum hp.2.1⟩
  · intro s s' start len hp hstep
    cases hstep with
    | commitIn s start len hmem hcas =>
      have hhead := chained_mem_head hp.1 hp.2.2.1 hmem hcas.symm
      refine ⟨hhead, by simp only; omega, ?_⟩
      obtain ⟨t, hsh⟩ : ∃ t, s.pendW = (start, len) :: t := by
        cases hl : s.pendW with
        | nil => rw [hl] at hhead; simp at hhead
        | cons f t =>
          rw [hl] at hhead
          simp only [List.head?_cons, Option.some.injEq] at hhead
          exact ⟨t, by rw [hhead]⟩
      simp only [hsh, List.erase_cons_head, List.tail_cons]
  · intro s s' start len hp hstep
    cases hstep with
    | commitOut s start len hmem hcas =>
      have hhead := chained_mem_head hp.2.1 hp.2.2.2 hmem hcas.symm
      refine ⟨hhead, by simp only; omega, ?_⟩
      obtain ⟨t, hsh⟩ : ∃ t, s.pendR = (start, len) :: t := by
        cases hl : s.pendR with
        | nil => rw [hl] at hhead; simp at hhead
        | cons f t =>
          rw [hl] at hhead
          simp only [List.head?_cons, Option.some.injEq] at hhead
          exact ⟨t, by rw [hhead]⟩
      simp only [hsh, List.erase_cons_head, List.tail_cons]

/-- Witness for `mpmc_commit_in_order`: committing the single pending 2-byte
reservation on a capacity-4 buffer. -/
theorem mpmc_commit_in_order_witness :
    (MpmcState.mk 4 false 2 0 0 0 [(0, 2)] []).pendW.head? = some (0, 2) ∧
    (MpmcState.mk 4 false 2 2 0 0 [] []).real_in
      = (MpmcState.mk 4 false 2 0 0 0 [(0, 2)] []).real_in + 2 ∧
    (MpmcState.mk 4 false 2 2 0 0 [] []).pendW
      = (MpmcState.mk 4 false 2 0 0 0 [(0, 2)] []).pendW.tail :=
  (mpmc_commit_in_order 4 false).2.2.2.2.2.1
    (MpmcState.mk 4 false 2 0 0 0 [(0, 2)] [])
    (MpmcState.mk 4 false 2 2 0 0 [] []) 0 2
    ⟨⟨rfl, rfl⟩, rfl, by decide, by decide⟩
    (MpmcStep.commitIn _ 0 2 (by simp) rfl)

/-- C3 (as implemented).  Oversized lengths and diagnostics: an SPSC `read`
with `len > capacity` can never satisfy `can_get` in any state obeying the
cursor chain, and `ringbuffer_spsc::read` contains no oversize check, so the
call keeps waiting/spinning (`block`) and never produces a diagnostic; an
MPMC `put`/`get` with `len > capacity` can never complete its reservation
under the cursor invariant, so its retry loop spins forever, also without
any diagnostic; only `ringbuffer_spsc::write` aborts fatally with a
diagnostic. -/
theorem oversize_no_diagnostic (α : Type) :
    (∀ (s : SpscState α) (len : Nat), s.outC ≤ s.inC →
       s.inC ≤ s.outC + s.cap → s.cap < len →
       spsc_read s len = .block) ∧
    (∀ (m : MpmcState) (len : Nat), MpmcInv m → m.cap < len →
       (∀ m', ¬ MpmcStep (.reserveIn len) m m') ∧
       (∀ m', ¬ MpmcStep (.reserveOut len) m m')) ∧
    (∀ (s : SpscState α) (data : List α), s.cap < data.length →
       spsc_write s data = .fatal) := by
  refine ⟨?_, ?_, ?_⟩
  · intro s len h1 h2 h3
    have hf : can_get s len = false := by
      simp only [can_get, decide_eq_false_iff_not]
      omega
    simp [spsc_read, hf]
  · intro m len hinv hlen
    obtain ⟨-, h1, h2, h3, h4, -, -⟩ := hinv
    constructor
    · intro m' hstep
      cases hstep with
      | reserveIn s len havail => omega
    · intro m' hstep
      cases hstep with
      | reserveOut s len havail => omega
  · intro s data h
    simp [spsc_write, h]

/-- Witness for `oversize_no_diagnostic`: length 17 against the capacity-16
initial SPSC state — `read` just blocks, while `write` aborts fatally. -/
theorem oversize_no_diagnostic_witness :
    spsc_read (ringbuffer_spsc_mk 16 true (fun _ => (0 : Nat))) 17
      = .block ∧
    spsc_write (ringbuffer_spsc_mk 16 true (fun _ => (0 : Nat)))
      (List.replicate 17 0) = .fatal :=
  ⟨(oversize_no_diagnostic Nat).1 _ 17 (by decide) (by decide) (by decide),
   (oversize_no_diagnostic Nat).2.2 _ _ (by decide)⟩

/-- C4 counterexample: the constructors validate nothing.  Capacity 3 is not
a power of two, yet `ringbuffer_spsc` is constructed with it and the result
is usable (a write completes); capacity 0 is likewise accepted by
`ringbuffer_mpmc`.  The capacity-3 buffer then visibly corrupts data: after
write `[10]`, write `[20]`, a 2-byte read returns `[20, 99]` (the second
write landed on index `1 &&& 2 = 0`, clobbering the first byte, and index 1
still holds malloc garbage `99`) instead of `[10, 20]`. -/
theorem ctor_accepts_invalid_capacity_cex :
    (¬ ∃ j : Nat, (3 : Nat) = 2 ^ j) ∧
    (ringbuffer_spsc_mk 3 false (fun _ => (0 : Nat))).cap = 3 ∧
    (∃ s' : SpscState Nat,
       spsc_write (ringbuffer_spsc_mk 3 false (fun _ => (0 : Nat))) [7]
         = .ok s' ()) ∧
    (ringbuffer_mpmc_mk 0 false).cap = 0 ∧
    spscRunOuts (ringbuffer_spsc_mk 3 false (fun _ => (99 : Nat)))
        [SOp.wr [10], SOp.wr [20], SOp.rd 2] = some [[20, 99]] := by
  refine ⟨?_, rfl, ⟨_, rfl⟩, rfl, by decide⟩
  rintro ⟨j, hj⟩
  rcases j with _ | _ | j
  · simp at hj
  · simp at hj
  · have h4 : 2 ^ (j + 2) = 4 * 2 ^ j := by ring
    have h1 : (1 : Nat) ≤ 2 ^ j := Nat.one_le_two_pow
    omega

/-- C4 amended: construction performs no capacity validation — for every
capacity (zero and non-powers of two included) both constructors return a
buffer object with all cursors zero, and the SPSC buffer accepts writes of
any length up to that capacity. -/
theorem ctor_no_validation (α : Type) (c : Nat) (ecv : Bool) (g : Nat → α)
    (data : List α) (hd : data.length ≤ c) :
    (ringbuffer_spsc_mk c ecv g).cap = c ∧
    (ringbuffer_spsc_mk c ecv g).inC = 0 ∧
    (ringbuffer_spsc_mk c ecv g).outC = 0 ∧
    (ringbuffer_mpmc_mk c ecv).cap = c ∧
    (ringbuffer_mpmc_mk c ecv).in_ = 0 ∧
    (ringbuffer_mpmc_mk c ecv).real_in = 0 ∧
    (ringbuffer_mpmc_mk c ecv).out_ = 0 ∧
    (ringbuffer_mpmc_mk c ecv).real_out = 0 ∧
    ∃ s', spsc_write (ringbuffer_spsc_mk c ecv g) data = .ok s' () := by
  refine ⟨rfl, rfl, rfl, rfl, rfl, rfl, rfl, rfl, ?_⟩
  refine ⟨spsc_put (ringbuffer_spsc_mk c ecv g) data, ?_⟩
  have hnp : ¬ (data.length > (ringbuffer_spsc_mk c ecv g).cap) := by
    simp only [ringbuffer_spsc_mk, gt_iff_lt, not_lt]
    exact hd
  have hcp : can_put (ringbuffer_spsc_mk c ecv g) data.length = true := by
    simp only [can_put, ringbuffer_spsc_mk, decide_eq_true_eq]
    omega
  rw [spsc_write, if_neg hnp, if_pos hcp]

/-- Witness for `ctor_no_validation`: capacity 6 (not a power of two), write
of two bytes. -/
theorem ctor_no_validation_witness :
    (ringbuffer_spsc_mk 6 false (fun _ => (0 : Nat))).cap = 6 ∧
    (ringbuffer_spsc_mk 6 false (fun _ => (0 : Nat))).inC = 0 ∧
    (ringbuffer_spsc_mk 6 false (fun _ => (0 : Nat))).outC = 0 ∧
    (ringbuffer_mpmc_mk 6 false).cap = 6 ∧
    (ringbuffer_mpmc_mk 6 false).in_ = 0 ∧
    (ringbuffer_mpmc_mk 6 false).real_in = 0 ∧
    (ringbuffer_mpmc_mk 6 false).out_ = 0 ∧
    (ringbuffer_mpmc_mk 6 false).real_out = 0 ∧
    ∃ s', spsc_write (ringbuffer_spsc_mk 6 false (fun _ => (0 : Nat))) [1, 2]
      = .ok s' () :=
  ctor_no_validation Nat 6 false (fun _ => 0) [1, 2] (by decide)
